import Mathlib

/-!
# Verification of the Pytheas table-structure discovery engine

A shallow embedding, in Lean 4, of the row/cell classification core of
`pytheas/pytheas.py` (the table-structure discovery engine), together with
proofs and refutations of the specification claims about it.

Conventions used throughout:

* Python floats are modelled as `ℚ` (all scores here arise from finite
  arithmetic on catalogue weights, so rationals are exact).
* A rule catalogue column (`fuzzy_rules[...][...]`, a dict from rule name to
  a record whose `weight` is a number or `None`) is modelled as a function
  `α → Option ℚ` giving each rule its (possibly null) weight.
* Pandas cells are modelled as `Option String`; `none` stands for a
  null/NaN cell.  Python's `str(nan)` renders as `"nan"`, which is what the
  source compares against.
* Row labels (pandas index values) are modelled as `ℤ`.
-/

namespace Pytheas

/-! ## Evidence scoring: `max_score` (pytheas.py:4434-4449) -/

/-- `max_score(events, unit_class_fuzzy_rules, weight_lower_bound)`
(pytheas.py:4434-4449).  Collects the weights of fired events whose weight is
not `None` and is `≥ weight_lower_bound`; the source sorts the collected
pairs by weight in descending order and returns the first weight, i.e. the
maximum of the collected weights, and returns `0` when no event qualifies or
when `events` is empty. -/
def max_score {α : Type} (events : List α) (weight : α → Option ℚ)
    (weight_lower_bound : ℚ) : ℚ :=
  if 0 < events.length then
    let event_score : List ℚ := events.filterMap fun e =>
      match weight e with
      | none => none
      | some w => if w ≥ weight_lower_bound then some w else none
    match event_score with
    | [] => 0
    | w :: ws => ws.foldl max w
  else 0

/-- The weights of the fired events that qualify: weight present (non-null)
and at least the lower bound. -/
def qualifiedWeights {α : Type} (events : List α) (weight : α → Option ℚ)
    (lb : ℚ) : List ℚ :=
  events.filterMap fun e =>
    match weight e with
    | none => none
    | some w => if w ≥ lb then some w else none

/-! ## Probabilistic OR: `probabilistic_sum` (pytheas.py:4453-4462) -/

/-- `probabilistic_sum(line_scores)` (pytheas.py:4453-4462).  The source
builds the dict `{x: line_scores.count(x)}` (keys in first-occurrence order,
i.e. `line_scores.dedup`) and returns `1 - prod((1-score)**count)`, and `0`
on an empty list. -/
def probabilistic_sum (line_scores : List ℚ) : ℚ :=
  if 0 < line_scores.length then
    1 - (line_scores.dedup.map fun s => (1 - s) ^ line_scores.count s).prod
  else 0

/-- Concrete catalogue used by witnesses: rule `"A"` has weight `1`,
rule `"B"` is untrained (null weight), every other rule has weight `2`. -/
def wExample : String → Option ℚ := fun e =>
  if e = "A" then some 1 else if e = "B" then none else some 2

/-! ## Incremental pattern summaries: `Patterns` (pytheas.py:3717-3962)

A cell's *train* is its ordered sequence of (character-class, run-length)
pairs; an empty train is the sentinel of an empty cell. -/

/-- The batch computation of a not-data window's
`disagreement_summary_strength` (`Patterns.not_data_initialize`,
pytheas.py:3880-3882): `sum(1 for x in column_trains if len(x) > 0)`, the
number of non-empty trains in the window. -/
def disagreement_summary_strength_batch (column_trains : List (List (Char × ℕ))) : ℕ :=
  (column_trains.filter fun x => 0 < x.length).length

/-- The effect of `Patterns.not_data_increment` (pytheas.py:3903-3962) on the
stored `disagreement_summary_strength` when the window is extended by a row
whose train is `last_train`.  Lines 3940-3941 read
`if len(last_train) > 0:` followed by the expression statement
`self.not_data[column_index]["disagreement_summary_strength"] + 1`; the
computed value is discarded, so the stored counter is unchanged in both
branches. -/
def not_data_increment_dss (dss : ℕ) (last_train : List (Char × ℕ)) : ℕ :=
  if 0 < last_train.length then dss else dss

/-! ## Null imputation in `get_class_confidences` (pytheas.py:4293-4329) -/

/-- The per-cell firing record consumed by `get_class_confidences`:
`data_rules_fired[row][column]` carries the fired rule names (`agreements`),
the window `summary_strength`, and the candidate cell's `null_equivalent`
and `aggregate` flags. -/
structure CellFired where
  agreements : List String
  summary_strength : ℕ
  null_equivalent : Bool
  aggregate : Bool

/-- The null-imputation step of `get_class_confidences`
(pytheas.py:4293-4329) for one cell: the `(value_agreements,
summary_strength)` pair actually scored.  `prev`/`prev2` are the same
column's records one and two rows above (`none` when that row or column is
absent from `data_rules_fired`); `prevWasData` models
`data_line_confidences[row_index-1] > not_data_line_confidences[row_index-1]`
and `prev2WasData` the same two rows up (consulted only when the row is
present, matching the source's short-circuit evaluation).  In the source the
first guard is `(row_index in data_rules_fired.keys() and ...
null_equivalent == True or ... summary_strength == 1)`, which by Python
precedence is `(... and null_equivalent) or (summary_strength == 1)`, and
`row_index in data_rules_fired.keys()` is identically true for the row
being scored.  The second `if` re-reads the candidate's own
`data_rules_fired` fields, so it tests the original `summary_strength`,
not the possibly substituted one, and its substitution overrides the
first. -/
def impute_agreements (impute_nulls : Bool) (cur : CellFired)
    (prev : Option CellFired) (prevWasData : Bool)
    (prev2 : Option CellFired) (prev2WasData : Bool) : List String × ℕ :=
  let step1 : List String × ℕ :=
    match prev with
    | some p =>
        if (cur.null_equivalent || cur.summary_strength == 1)
            && impute_nulls && prevWasData then
          (p.agreements, p.summary_strength)
        else
          (cur.agreements, cur.summary_strength)
    | none => (cur.agreements, cur.summary_strength)
  match prev2 with
  | some p2 =>
      if cur.summary_strength == 0 && cur.aggregate && prev2WasData then
        (p2.agreements, p2.summary_strength)
      else step1
  | none => step1

/-! ## Table records, merging, and subheader scopes
(pytheas.py:1422-1449, 2270-2286, 2897-2912) -/

/-- Python `range(a, b)` over row labels, as a list of integers. -/
def intRange (a b : ℤ) : List ℤ :=
  (List.range (b - a).toNat).map fun i : ℕ => a + (i : ℤ)

/-- First-match association-list lookup; Python dicts over row labels are
modelled as association lists in which the entry that "wins" (the latest
`dict` write) is kept first. -/
def alookup {α : Type} (k : ℤ) : List (ℤ × α) → Option α
  | [] => none
  | (a, b) :: rest => if k = a then some b else alookup k rest

/-- `a if a is not None else b` on options. -/
def orElseOpt {α : Type} (a b : Option α) : Option α :=
  match a with
  | some v => some v
  | none => b

/-- The fields of an emitted table record that merging manipulates.
`subheader_scope` maps a subheader row to the rows it covers;
`aggregation_scope` maps an aggregation row to its descriptor (kept opaque
as a string here). -/
structure TableRec where
  top_boundary : ℤ
  data_start : ℤ
  data_end : ℤ
  header : List ℤ
  subheader_scope : List (ℤ × List ℤ)
  aggregation_scope : List (ℤ × String)

/-- The merge test of `extract_tables` (pytheas.py:1423-1441): every row of
`range(previous.data_end + 1, next.data_start)` must lie in
`set(blank_lines + list(set(range(next.top_boundary, next.data_start)) -
set(next.header)))`, i.e. be a blank line or a pre-data non-header row *of
the next table* (not of the previous one). -/
def mergeCond (blank_lines : List ℤ) (prev_data_end : ℤ) (tail : TableRec) : Bool :=
  (intRange (prev_data_end + 1) tail.data_start).all fun r =>
    blank_lines.contains r ||
      ((intRange tail.top_boundary tail.data_start).contains r &&
        !(tail.header.contains r))

/-- `merge_tables(table_head, table_tail)` (pytheas.py:2270-2286): the
surviving record is the head with `data_end` taken from the tail, the two
subheader-scope dicts merged (`{**head, **tail}`, tail overriding), every
row of `set(range(tail.top_boundary, tail.data_start)) - set(tail.header)`
then added as a subheader with *empty* scope (overriding both), and the two
aggregation-scope dicts merged (tail overriding).  With first-match lookup,
"overrides" is "comes first". -/
def merge_tables (head tail : TableRec) : TableRec :=
  { head with
    data_end := tail.data_end
    subheader_scope :=
      ((intRange tail.top_boundary tail.data_start).filter fun r =>
          !(tail.header.contains r)).map (fun r => (r, ([] : List ℤ)))
        ++ tail.subheader_scope ++ head.subheader_scope
    aggregation_scope := tail.aggregation_scope ++ head.aggregation_scope }

/-- The lookahead of the scope-assignment loop (pytheas.py:2904-2912): the
first later subheader that has no scope assigned yet. -/
def firstUnassigned (scope : List (ℤ × List ℤ)) : List ℤ → Option ℤ
  | [] => none
  | s :: rest =>
      if (alookup s scope).isSome then firstUnassigned scope rest else some s

/-- The subheader scope-assignment loop of `predict_subheaders`
(pytheas.py:2897-2912).  For each listed subheader without a scope: the last
list entry receives `range(subheader + 1, cand_data.index[-1] + 1)`
(`lastIdx` is `cand_data.index[-1]`, the final data row); any other entry
receives `range(subheader + 1, next_subh)` where `next_subh` is the first
later listed subheader still without a scope, and receives nothing at all
when every later subheader already has one. -/
def assign_scopes_loop (lastIdx : ℤ) (scope : List (ℤ × List ℤ)) :
    List ℤ → List (ℤ × List ℤ)
  | [] => scope
  | s :: rest =>
      if (alookup s scope).isSome then assign_scopes_loop lastIdx scope rest
      else
        match rest with
        | [] => assign_scopes_loop lastIdx
            (scope ++ [(s, intRange (s + 1) (lastIdx + 1))]) rest
        | _ :: _ =>
            match firstUnassigned scope rest with
            | some nxt => assign_scopes_loop lastIdx
                (scope ++ [(s, intRange (s + 1) nxt)]) rest
            | none => assign_scopes_loop lastIdx scope rest

/-- The scope map the loop produces from an empty initial dict on a sorted
candidate list: each subheader covers the open interval up to the next one,
the last covers up to the final data row. -/
def consecutive_scopes (lastIdx : ℤ) : List ℤ → List (ℤ × List ℤ)
  | [] => []
  | [s] => [(s, intRange (s + 1) (lastIdx + 1))]
  | s :: s2 :: rest =>
      (s, intRange (s + 1) s2) :: consecutive_scopes lastIdx (s2 :: rest)

/-- The removal of the predicted subheaders from the table's data lines
(`discover_next_table`, pytheas.py:2482-2484). -/
def remove_subheaders (data_lines subs : List ℤ) : List ℤ :=
  data_lines.filter fun r => !(subs.contains r)

/-- Head table of the C7/C9 counterexamples: data rows 0..4, no headers, no
subheaders. -/
def headExample : TableRec :=
  { top_boundary := 0, data_start := 0, data_end := 4, header := [],
    subheader_scope := [], aggregation_scope := [] }

/-- Tail table of the C7/C9 counterexamples: discovered at offset 5 with a
pre-data non-header row 5 and data rows 6..8. -/
def tailExample : TableRec :=
  { top_boundary := 5, data_start := 6, data_end := 8, header := [],
    subheader_scope := [], aggregation_scope := [] }

/-! ## The top-down last-data-line walk
(`predict_last_data_line_top_down`, pytheas.py:3361-3714)

Strings are modelled as character lists (`PyStr`), since Lean's `String`
primitives do not reduce inside the kernel; a pandas cell is
`Option PyStr` with `none` for null/NaN. -/

/-- A Python string, as its character sequence. -/
abbrev PyStr := List Char

/-- `str(cell)` for a pandas cell: a null/NaN cell renders as `"nan"`
(pytheas.py:3403 keeps every non-`None` element through `str`, and a pandas
null is the float NaN, not `None`). -/
def cellStr : Option PyStr → PyStr
  | some s => s
  | none => "nan".data

/-- `first_value` (pytheas.py:3404-3406): the first cell as a string,
lower-cased, with one pair of surrounding double quotes stripped.  The
source indexes `row_values[0]`; the grid always has at least one column. -/
def firstValue (cells : List (Option PyStr)) : PyStr :=
  let fv := (cellStr (cells.headD none)).map Char.toLower
  if fv.headD ' ' = '"' ∧ fv.getLast? = some '"' then (fv.drop 1).dropLast
  else fv

/-- Modelled from the spec: `pat_util.footnote_keywords`
(`pytheas/pat_utilities.py`, not under src/) — the markers a footnote line
may begin with; §4.4(5) of the spec names "note" and "source". -/
def footnote_keywords : List PyStr := ["note".data, "source".data]

/-- `first_value.startswith(footnote_keyword)` over the keyword list
(pytheas.py:3423-3427 and 3479-3483). -/
def startsWithFootnoteKeyword (fv : PyStr) : Bool :=
  footnote_keywords.any fun kw => kw.isPrefixOf fv

/-- The null-equivalent renderings the walk tests against after
lower-casing (pytheas.py:3450/3458/3469: `["", "none", "nan"]`). -/
def lowerNullish : List PyStr := ["".data, "none".data, "nan".data]

/-- The near-null payload test (pytheas.py:3448-3475): the first cell is
non-null and either every later cell is null-equivalent, or (for rows of
three or more cells) every cell beyond the second is — so a row whose only
payload sits in column 1 also qualifies. -/
def nearNullPayload (rv : List PyStr) : Bool :=
  decide (0 < rv.length) &&
  !(lowerNullish.contains ((rv.headD []).map Char.toLower)) &&
  ((decide (1 < rv.length) &&
      ((rv.drop 1).filter fun i =>
        !(lowerNullish.contains (i.map Char.toLower))).length == 0) ||
   (decide (2 < rv.length) &&
      ((rv.drop 2).filter fun i =>
        !(lowerNullish.contains (i.map Char.toLower))).length == 0))

/-- The numbered-footnote shapes of the promoted-subheader branch
(pytheas.py:3428-3440): `len(first_value) > 5` and either `1`/`a` followed
by a separator, or `(` then any digit or `a` then `)`. -/
def numberedFootnoteSub (fv : PyStr) : Bool :=
  decide (5 < fv.length) &&
  (((fv.getD 0 ' ' == '1' || fv.getD 0 ' ' == 'a') &&
      [' ', '.', '/', ')', ']', ':'].contains (fv.getD 1 ' ')) ||
   (fv.getD 0 ' ' == '(' &&
      ((fv.getD 1 ' ').isDigit || fv.getD 1 ' ' == 'a') &&
      fv.getD 2 ' ' == ')'))

/-- The numbered-footnote shapes of the near-null branch
(pytheas.py:3488-3499): as above but the parenthesised form accepts only
`(1)` or `(a)`. -/
def numberedFootnoteNear (fv : PyStr) : Bool :=
  (decide (5 < fv.length) &&
    ((fv.getD 0 ' ' == '1' || fv.getD 0 ' ' == 'a') &&
      [' ', '.', '/', ')', ']', ':'].contains (fv.getD 1 ' '))) ||
  (decide (5 < fv.length) &&
    (fv.getD 0 ' ' == '(' &&
      (fv.getD 1 ' ' == '1' || fv.getD 1 ' ' == 'a') &&
      fv.getD 2 ' ' == ')'))

/-- pytheas.py:3501-3506: the first value opens with `(` and every later
cell renders exactly as `"nan"`. -/
def parenNullFootnote (fv : PyStr) (rv : List PyStr) : Bool :=
  fv.headD ' ' == '(' && decide (1 < rv.length) &&
    ((rv.drop 1).filter fun i => !(i == "nan".data)).length == 0

/-- `non_empty_values(df_row)` (pytheas.py:4231-4233): the position one
past the last non-null cell (`df_row.loc[:last_valid_index].shape[0]`);
on an all-null row `last_valid_index()` is `None` and the unbounded slice
is the whole row. -/
def non_empty_values (cells : List (Option PyStr)) : ℕ :=
  match cells.reverse.findIdx? Option.isSome with
  | some i => cells.length - i
  | none => cells.length

/-- `",".join(line.apply(str).tolist())` (pytheas.py:3535), the key under
which a row is tested against previously discovered headers. -/
def rowKey (cells : List (Option PyStr)) : PyStr :=
  match cells.map cellStr with
  | [] => []
  | x :: xs => xs.foldl (fun acc s => acc ++ ',' :: s) x

/-- Python `max` over the accepted-width list; only consulted when the list
is non-empty (guarded at pytheas.py:3664). -/
def maxNat (l : List ℕ) : ℕ := l.foldl max 0

/-- One candidate row of the walk.  `cells` holds the (column-trimmed) cell
payloads.  The other fields are the row's oracle scores: `dataConf` and
`notDataConf` are the probabilistic-sum confidences the walk computes for
this row at pytheas.py:3637/3657 — their ingredients (`collect_line_rules`
and the per-cell rule firings) call into `pytheas.pat_utilities` and
`pytheas.table_classifier_utilities`, which are not under src/, so the
computed values enter the embedding as row data.  `predData` likewise
models `predict_line_label(data_confidence[label],
not_data_confidence[label])["label"] == "DATA"` (pytheas.py:3671-3678) on
the pre-computed whole-file confidences. -/
structure WalkRow where
  cells : List (Option PyStr)
  dataConf : ℚ
  notDataConf : ℚ
  predData : Bool

/-- The label sets the walk tests rows against, all passed to
`predict_last_data_line_top_down` by its caller: blank lines, promoted
subheaders (`subheader_scope.keys()`, line 3378), aggregation rows, and
the joined strings of previously discovered headers
(`headers_discovered.values()`). -/
structure WalkParams where
  blank_lines : List ℤ
  subheaders : List ℤ
  aggregation_rows : List ℤ
  headers_discovered : List PyStr

/-- `certain_data` (pytheas.py:3379): initialised empty and never appended
to anywhere in the function, so the membership test at line 3417 never
fires. -/
def certain_data : List ℤ := []

/-- The walk's mutable loop state: `line_counter`, the labels of accepted
rows (`data.index`; accepted rows are prepended, pytheas.py:3521/3698),
`certain_data_widths`, the probation list, and the running
`predicted_ldl`. -/
structure WalkState where
  lineCounter : ℕ
  dataIdx : List ℤ
  certainDataWidths : List ℕ
  probation : List ℤ
  predictedLdl : ℤ

/-- Accepting a row (pytheas.py:3521-3523 / 3697-3699): record the label as
the new last data line, prepend it to the data block, append its width. -/
def acceptRow (st : WalkState) (label : ℤ) (w : ℕ) : WalkState :=
  { st with
    predictedLdl := label
    dataIdx := (label :: st.dataIdx)
    certainDataWidths := st.certainDataWidths ++ [w] }

/-- The decision tail of the loop body (pytheas.py:3691-3705): a row on
probation is skipped, an accepted row extends the data block, any other
row stops the walk.  The flag says whether the loop continues. -/
def finalizeRow (st : WalkState) (label : ℤ) (w : ℕ) (isData : Bool)
    (probation : List ℤ) : Bool × WalkState :=
  if probation.contains label then (true, { st with probation := probation })
  else if isData then (true, acceptRow st label w)
  else (false, st)

/-- `line_counter += 1` (pytheas.py:3402). -/
def bumpCounter (st : WalkState) : WalkState :=
  { st with lineCounter := st.lineCounter + 1 }

/-- `row_values` (pytheas.py:3403): the row's cells through `str`. -/
def rowValues (cells : List (Option PyStr)) : List PyStr :=
  cells.map cellStr

/-- The footnote test of the promoted-subheader branch (pytheas.py:3423-
3440): a footnote keyword or a numbered footnote shape. -/
def subheaderFootnote (fv : PyStr) : Bool :=
  startsWithFootnoteKeyword fv || numberedFootnoteSub fv

/-- Whether the near-null branch stops the walk (pytheas.py:3448-3515):
the row's payload is (near-)null and `FOOTNOTE_FOUND` is set — either
carried over from the promoted-subheader branch or raised by the keyword,
`=`, numbered or parenthesised-null heuristics. -/
def nearNullFootnoteBreak (P : WalkParams) (label : ℤ)
    (cells : List (Option PyStr)) : Bool :=
  nearNullPayload (rowValues cells) &&
    ((P.subheaders.contains label && subheaderFootnote (firstValue cells)) ||
     startsWithFootnoteKeyword (firstValue cells) ||
     (firstValue cells).contains '=' ||
     numberedFootnoteNear (firstValue cells) ||
     parenNullFootnote (firstValue cells) (rowValues cells))

/-- One iteration of the walk loop (pytheas.py:3401-3708) on the row at
`label`: `true` with the updated state when the loop continues, `false`
when it stops (a Python `break`).  The branches mirror the source in
order: blank-line stop (3416/3703-3705); promoted subheaders without a
footnote marker are skipped (3422-3446), with one carrying a footnote
marker the walk falls through to the near-null test; near-null footnote
stop (3448-3515); force-accept of the first three walked rows and of
aggregation rows (3517-3527; `line_counter` was just incremented); all-null
skip (3529-3533); previously discovered headers are rejected (3535-3539);
otherwise the row is scored and accepted when `data_conf > 0 and data_conf
>= not_data_conf` (3660), or by the width fallback (3663-3669), or put on
probation (3674-3680), or accepted on the standalone DATA prediction
(3681-3686); the surviving `IS_DATA` default is the (never firing)
`certain_data` test of line 3417. -/
def walkStep (P : WalkParams) (st0 : WalkState) (label : ℤ) (row : WalkRow) :
    Bool × WalkState :=
  if !(P.blank_lines.contains label) then
    if P.subheaders.contains label &&
        !(subheaderFootnote (firstValue row.cells)) then
      (true, bumpCounter st0)
    else if nearNullFootnoteBreak P label row.cells then
      (false, bumpCounter st0)
    else if decide (st0.lineCounter + 1 ≤ 3) ||
        P.aggregation_rows.contains label then
      (true, acceptRow (bumpCounter st0) label (non_empty_values row.cells))
    else if row.cells.all Option.isNone then
      (true, bumpCounter st0)
    else if P.headers_discovered.contains (rowKey row.cells) then
      finalizeRow (bumpCounter st0) label (non_empty_values row.cells) false
        st0.probation
    else if decide (0 < row.dataConf) &&
        decide (row.notDataConf ≤ row.dataConf) then
      finalizeRow (bumpCounter st0) label (non_empty_values row.cells) true
        st0.probation
    else if !st0.certainDataWidths.isEmpty &&
        non_empty_values row.cells == maxNat st0.certainDataWidths &&
        st0.dataIdx.contains (label - 1) then
      finalizeRow (bumpCounter st0) label (non_empty_values row.cells) true
        st0.probation
    else if !(st0.probation.contains (label - 1)) &&
        !(P.blank_lines.contains (label - 1)) &&
        decide (row.dataConf < row.notDataConf) && !row.predData then
      finalizeRow (bumpCounter st0) label (non_empty_values row.cells)
        (certain_data.contains label) (st0.probation ++ [label])
    else if (decide (0 < row.dataConf) &&
          decide (row.notDataConf ≤ row.dataConf)) ||
        (!(st0.probation.contains (label - 1)) && row.predData) then
      finalizeRow (bumpCounter st0) label (non_empty_values row.cells) true
        st0.probation
    else
      finalizeRow (bumpCounter st0) label (non_empty_values row.cells)
        (certain_data.contains label) st0.probation
  else
    (false, bumpCounter st0)

/-- The walk over the candidate rows `dataframe.loc[predicted_fdl:]`, whose
labels are the consecutive integers starting at the first `label`. -/
def walkAux (P : WalkParams) : List WalkRow → ℤ → WalkState → WalkState
  | [], _, st => st
  | r :: rs, label, st =>
      match walkStep P st label r with
      | (true, st1) => walkAux P rs (label + 1) st1
      | (false, st1) => st1

/-- `predict_last_data_line_top_down` (pytheas.py:3361-3714), reduced to
its returned `predicted_ldl`: the walk starts at the predicted first data
line with `predicted_ldl = predicted_fdl` (line 3385) and empty data,
width and probation lists. -/
def predict_last_data_line_top_down (P : WalkParams) (fdl : ℤ)
    (rows : List WalkRow) : ℤ :=
  (walkAux P rows fdl ⟨0, [], [], [], fdl⟩).predictedLdl

/-- Empty parameter sets (no blanks, no subheaders, no aggregations, no
discovered headers) for the C1 counterexample. -/
def walkParamsEmpty : WalkParams := ⟨[], [], [], []⟩

/-- A plain two-cell row with zero scores: force-accepted while
`line_counter <= 3`. -/
def forcedRow : WalkRow := ⟨[some "a".data, some "b".data], 0, 0, false⟩

/-- A plain two-cell row with `data_conf = 1` and `not_data_conf = 0`. -/
def scoredRow : WalkRow := ⟨[some "a".data, some "b".data], 1, 0, false⟩

/-- Walk parameters for the C10 witness: row 2 is blank. -/
def walkParamsBlank2 : WalkParams := ⟨[2], [], [], []⟩

/-! ## Boundary assembly of `discover_next_table` / `extract_tables`
(pytheas.py:2362-2367, 2413-2450, 1451-1504) -/

/-- `data_section_start` (pytheas.py:2362-2367):
`min(min(candidate_pat_sub_headers), pat_first_data_line)` when candidate
subheaders exist, otherwise the predicted first data line. -/
def data_section_start (fdl : ℤ) (cands : List ℤ) : ℤ :=
  match cands with
  | [] => fdl
  | c :: cs => min (cs.foldl min c) fdl

/-- The boundary fields of an emitted record. -/
structure Boundaries where
  top_boundary : ℤ
  data_start : ℤ
  data_end : ℤ

/-- The boundaries `discover_next_table` assembles (pytheas.py:2413-2416,
2450): `top_boundary` is the scan offset, `data_start` the data-section
start, `data_end` the walk's last data line. -/
def discover_boundaries (file_offset fdl : ℤ) (cands : List ℤ)
    (P : WalkParams) (rows : List WalkRow) : Boundaries :=
  { top_boundary := file_offset
    data_start := data_section_start fdl cands
    data_end := predict_last_data_line_top_down P fdl rows }

/-- `bottom_boundary` of a table with a successor (pytheas.py:1408,
1462-1465): the successor's `top_boundary - 1`, where the successor is
discovered at offset `data_end + 1`. -/
def bottom_with_successor (data_end : ℤ) : ℤ := (data_end + 1) - 1

/-- `bottom_boundary` of a non-first table without successor
(pytheas.py:1471-1486): the last grid row when trailing rows become
footnotes, otherwise its own `data_end`.  (The first table without a
successor keeps `len(csv_file) - 1` from pytheas.py:2415, the last grid
row.) -/
def bottom_final (nrows data_end : ℤ) : ℤ :=
  if data_end < nrows - 1 then nrows - 1 else data_end

/-! ## Line-rule weight collection in `get_class_confidences`
(pytheas.py:4374-4418) -/

/-- DATA line-rule weight collection (pytheas.py:4406-4418): walks the fired
`line` events and appends each weight that is non-null and *strictly*
greater than `weight_lower_bound` to the row's evidence list. -/
def append_line_data_weights (weights : String → Option ℚ) (wlb : ℚ)
    (evidence : List ℚ) (events : List String) : List ℚ :=
  events.foldl (fun acc rule =>
    match weights rule with
    | some w => if w > wlb then acc ++ [w] else acc
    | none => acc) evidence

/-- The `ADJACENT_ARITHMETIC_SEQUENCE_k` retry (pytheas.py:4389-4395): a
fired sequence event whose weight is untrained is renamed to the rule for
`k+1` steps when its final character is a digit in 2..5
(`int(steps) in range(2, 6)`). -/
def rename_arith_event (weights : String → Option ℚ) (event : String) : String :=
  if event.startsWith "ADJACENT_ARITHMETIC_SEQUENCE" && (weights event).isNone then
    let steps := event.back
    if steps == '2' || steps == '3' || steps == '4' || steps == '5' then
      (event.dropRight 1).push (Char.ofNat (steps.toNat + 1))
    else event
  else event

/-- NOT-DATA line-rule weight collection (pytheas.py:4374-4404): runs only
when the trimmed frame has more than one column; skips
`UP_TO_FIRST_COLUMN_COMPLETE_CONSISTENTLY` once a row classified data has
been seen (`before_data == False`); renames untrained
`ADJACENT_ARITHMETIC_SEQUENCE_k` events; then appends the (renamed) event's
weight when it is non-null and *strictly* greater than
`not_data_weight_lower_bound`.  An absent catalogue key and a null weight
are modelled alike as `none` (the source tests
`event in ...keys() and ...weight != None`). -/
def append_line_not_data_weights (weights : String → Option ℚ) (ndwlb : ℚ)
    (before_data : Bool) (ncols : ℕ)
    (evidence : List ℚ) (events : List String) : List ℚ :=
  if 1 < ncols then
    events.foldl (fun acc event =>
      if event == "UP_TO_FIRST_COLUMN_COMPLETE_CONSISTENTLY" && !before_data then
        acc
      else
        match weights (rename_arith_event weights event) with
        | some w => if w > ndwlb then acc ++ [w] else acc
        | none => acc) evidence
  else evidence

theorem list_dedup_pow_count_prod (l : List ℚ) (f : ℚ → ℚ) :
    (l.dedup.map fun s => f s ^ l.count s).prod = (l.map f).prod := by
  rw [Finset.prod_list_map_count l f]
  rw [Finset.prod]
  rfl

theorem foldl_max_mem (l : List ℚ) (a : ℚ) :
    l.foldl max a = a ∨ l.foldl max a ∈ l := by
  induction l generalizing a with
  | nil => exact Or.inl rfl
  | cons b t ih =>
    have hfold : (b :: t).foldl max a = t.foldl max (max a b) := rfl
    rcases ih (max a b) with h | h
    · rcases max_choice a b with hm | hm
      · exact Or.inl (by rw [hfold, h, hm])
      · refine Or.inr ?_
        rw [hfold, h, hm]
        exact List.mem_cons_self b t
    · refine Or.inr (List.mem_cons_of_mem _ ?_)
      rw [hfold]
      exact h

theorem seed_le_foldl_max (l : List ℚ) (a : ℚ) : a ≤ l.foldl max a := by
  induction l generalizing a with
  | nil => exact le_rfl
  | cons b t ih => exact le_trans (le_max_left a b) (ih (max a b))

theorem mem_le_foldl_max (l : List ℚ) (a x : ℚ) (hx : x ∈ l) :
    x ≤ l.foldl max a := by
  induction l generalizing a with
  | nil => cases hx
  | cons b t ih =>
    rcases List.mem_cons.mp hx with rfl | h
    · exact le_trans (le_max_right a x) (seed_le_foldl_max t _)
    · exact ih _ h

theorem max_score_eq_match {α : Type} (events : List α) (weight : α → Option ℚ)
    (lb : ℚ) :
    max_score events weight lb =
      match qualifiedWeights events weight lb with
      | [] => 0
      | w :: ws => ws.foldl max w := by
  cases events with
  | nil => simp [max_score, qualifiedWeights]
  | cons e es => simp only [max_score, qualifiedWeights, List.length_cons,
      Nat.succ_pos, if_pos]

/-- C5: `max_score` returns the maximum weight over fired rules whose weight
is non-null and at least the lower bound; it returns `0` when no fired rule
qualifies (in particular on an empty fired set); and a fired rule whose
weight is null or strictly below the bound never changes the result (it
contributes zero and never vetoes the row). -/
theorem max_score_is_max_of_qualifying {α : Type} (events : List α)
    (weight : α → Option ℚ) (lb : ℚ) :
    (∀ w ∈ qualifiedWeights events weight lb, w ≤ max_score events weight lb) ∧
    (qualifiedWeights events weight lb ≠ [] →
      max_score events weight lb ∈ qualifiedWeights events weight lb) ∧
    (qualifiedWeights events weight lb = [] → max_score events weight lb = 0) ∧
    (∀ e : α, (weight e = none ∨ ∃ w, weight e = some w ∧ w < lb) →
      max_score (e :: events) weight lb = max_score events weight lb) := by
  refine ⟨?_, ?_, ?_, ?_⟩
  · intro w hw
    rw [max_score_eq_match]
    rcases hq : qualifiedWeights events weight lb with _ | ⟨v, vs⟩
    · rw [hq] at hw; cases hw
    · rw [hq] at hw
      rcases List.mem_cons.mp hw with rfl | h
      · exact seed_le_foldl_max vs w
      · exact mem_le_foldl_max vs v w h
  · intro hne
    rw [max_score_eq_match]
    rcases hq : qualifiedWeights events weight lb with _ | ⟨v, vs⟩
    · exact absurd hq hne
    · show vs.foldl max v ∈ v :: vs
      rcases foldl_max_mem vs v with h | h
      · rw [h]; exact List.mem_cons_self v vs
      · exact List.mem_cons_of_mem v h
  · intro hq
    rw [max_score_eq_match, hq]
  · intro e he
    have hfm : qualifiedWeights (e :: events) weight lb =
        qualifiedWeights events weight lb := by
      rcases he with h | ⟨w, hw, hlt⟩
      · simp [qualifiedWeights, List.filterMap_cons, h]
      · simp [qualifiedWeights, List.filterMap_cons, hw, not_le.mpr hlt]
    rw [max_score_eq_match, max_score_eq_match, hfm]

/-- Closed witness for C5 on a concrete fired set and catalogue. -/
theorem max_score_witness :
    max_score ["A", "C"] wExample 1 ∈ qualifiedWeights ["A", "C"] wExample 1 ∧
    max_score ["B", "A", "C"] wExample 1 = max_score ["A", "C"] wExample 1 := by
  refine ⟨(max_score_is_max_of_qualifying ["A", "C"] wExample 1).2.1 ?_,
    (max_score_is_max_of_qualifying ["A", "C"] wExample 1).2.2.2 "B" ?_⟩
  · decide
  · exact Or.inl (by decide)

/-- C3: the row confidence produced by `probabilistic_sum` equals
`1 - ∏ (1 - s)` over the evidence scores with multiplicity (`0` on an empty
list, since the empty product is `1`), and the scorer is monotone: appending
one additional positive score never decreases the result (evidence scores
are probabilities, hence bounded by `1`). -/
theorem probabilistic_sum_correct :
    (∀ l : List ℚ, probabilistic_sum l = 1 - (l.map fun s => 1 - s).prod) ∧
    (∀ (l : List ℚ) (s : ℚ), (∀ x ∈ l, x ≤ 1) → 0 < s →
      probabilistic_sum l ≤ probabilistic_sum (l ++ [s])) := by
  have hform : ∀ l : List ℚ,
      probabilistic_sum l = 1 - (l.map fun s => 1 - s).prod := by
    intro l
    cases l with
    | nil => simp [probabilistic_sum]
    | cons a t =>
      simp only [probabilistic_sum, List.length_cons, Nat.succ_pos, if_pos]
      rw [list_dedup_pow_count_prod]
  refine ⟨hform, ?_⟩
  intro l s hl hs
  rw [hform, hform]
  have hP : (0:ℚ) ≤ (l.map fun s => 1 - s).prod := by
    apply List.prod_nonneg
    intro x hx
    rcases List.mem_map.mp hx with ⟨y, hy, rfl⟩
    linarith [hl y hy]
  have hexp : ((l ++ [s]).map fun t => 1 - t).prod =
      (l.map fun t => 1 - t).prod * (1 - s) := by
    simp
  rw [hexp]
  nlinarith

/-- Closed witness for C3's monotonicity on concrete scores. -/
theorem probabilistic_sum_witness :
    probabilistic_sum [0] ≤ probabilistic_sum [0, 1] :=
  probabilistic_sum_correct.2 [0] 1 (by decide) (by decide)

/-- C4: evaluation at the failing input.  Extending the not-data window
whose only row has the non-empty train `[('D',1)]` by a new row with the
non-empty train `[('D',2)]`: `Patterns.not_data_increment` leaves the
stored `disagreement_summary_strength` at `1` (line 3941 computes `+ 1` in
an expression statement and discards it), while the batch recompute of
`Patterns.not_data_initialize` over the extended window yields `2` — so
incremental extension does not equal batch recomputation. -/
theorem not_data_increment_dss_ne_batch :
    not_data_increment_dss
        (disagreement_summary_strength_batch [[('D', 1)]]) [('D', 2)] = 1 ∧
    disagreement_summary_strength_batch [[('D', 1)], [('D', 2)]] = 2 := by
  constructor
  · rfl
  · rfl

/-- C6 counterexample: the claim says substitution happens whenever the
candidate cell has `summary_strength ≤ 1` (and the prior row was data, with
imputation on), but for a non-null-equivalent, non-aggregate cell with
`summary_strength = 0` the source tests `summary_strength == 1` and keeps
the candidate's own (empty) agreements instead of the prior row's. -/
theorem impute_agreements_claim_false :
    impute_agreements true ⟨[], 0, false, false⟩
        (some ⟨["RULE"], 3, false, false⟩) true none false = ([], 0) ∧
    (0 : ℕ) ≤ 1 ∧
    ([], 0) ≠ (["RULE"], (3:ℕ)) := by
  refine ⟨rfl, Nat.zero_le 1, by simp⟩

/-- C6 (amended): the cell's agreements and summary strength are substituted
with the prior row's exactly when the candidate cell is null-equivalent or
has summary strength *exactly* 1, imputation is enabled, and the prior row
is present and was classified data; when additionally the candidate's own
summary strength is 0 and the row is an aggregation row and the row two
above is present and was classified data, the values of the row two above
are used instead (this second substitution overrides the first). -/
theorem impute_agreements_characterization (imp : Bool) (cur p p2 : CellFired)
    (pd p2d : Bool) :
    (impute_agreements imp cur (some p) pd (some p2) p2d =
      if cur.summary_strength = 0 ∧ cur.aggregate = true ∧ p2d = true then
        (p2.agreements, p2.summary_strength)
      else if (cur.null_equivalent = true ∨ cur.summary_strength = 1) ∧
          imp = true ∧ pd = true then
        (p.agreements, p.summary_strength)
      else (cur.agreements, cur.summary_strength)) ∧
    (impute_agreements imp cur (some p) pd none p2d =
      if (cur.null_equivalent = true ∨ cur.summary_strength = 1) ∧
          imp = true ∧ pd = true then
        (p.agreements, p.summary_strength)
      else (cur.agreements, cur.summary_strength)) ∧
    (impute_agreements imp cur none pd (some p2) p2d =
      if cur.summary_strength = 0 ∧ cur.aggregate = true ∧ p2d = true then
        (p2.agreements, p2.summary_strength)
      else (cur.agreements, cur.summary_strength)) ∧
    (impute_agreements imp cur none pd none p2d =
      (cur.agreements, cur.summary_strength)) := by
  refine ⟨?_, ?_, ?_, rfl⟩ <;>
    · simp only [impute_agreements]
      split_ifs with h1 h2 h3 <;>
        simp_all [Bool.and_eq_true, Bool.or_eq_true, beq_iff_eq,
          eq_self_iff_true, Decidable.not_not]

/-- Closed witness for the amended C6 on concrete records. -/
theorem impute_agreements_witness :
    impute_agreements true ⟨[], 0, false, true⟩
        (some ⟨["P1"], 4, false, false⟩) true (some ⟨["P2"], 5, false, false⟩) true
      = (["P2"], 5) := by
  rw [(impute_agreements_characterization true ⟨[], 0, false, true⟩
    ⟨["P1"], 4, false, false⟩ ⟨["P2"], 5, false, false⟩ true true).1]
  simp

theorem mem_intRange {r a b : ℤ} : r ∈ intRange a b ↔ a ≤ r ∧ r < b := by
  simp only [intRange, List.mem_map, List.mem_range]
  constructor
  · rintro ⟨i, hi, rfl⟩
    omega
  · intro ⟨h1, h2⟩
    exact ⟨(r - a).toNat, by omega, by omega⟩

theorem int_contains_iff {l : List ℤ} {a : ℤ} : l.contains a = true ↔ a ∈ l := by
  simp [List.contains, List.elem_iff]

theorem int_contains_false_iff {l : List ℤ} {a : ℤ} :
    l.contains a = false ↔ a ∉ l := by
  constructor
  · intro h hmem
    rw [← int_contains_iff, h] at hmem
    cases hmem
  · intro h
    cases hc : l.contains a
    · rfl
    · exact absurd (int_contains_iff.mp hc) h

theorem alookup_append {α : Type} (k : ℤ) (l₁ l₂ : List (ℤ × α)) :
    alookup k (l₁ ++ l₂) = orElseOpt (alookup k l₁) (alookup k l₂) := by
  induction l₁ with
  | nil => rfl
  | cons p rest ih =>
    obtain ⟨a, b⟩ := p
    by_cases h : k = a <;> simp [alookup, h, ih, orElseOpt]

theorem alookup_map_const {α : Type} (k : ℤ) (l : List ℤ) (v : α) :
    alookup k (l.map fun r => (r, v)) = if k ∈ l then some v else none := by
  induction l with
  | nil => simp [alookup]
  | cons a rest ih =>
    by_cases h : k = a <;> simp [alookup, h, ih]

theorem alookup_cons_self {α : Type} (a : ℤ) (b : α) (rest : List (ℤ × α)) :
    alookup a ((a, b) :: rest) = some b := by
  simp [alookup]

theorem alookup_cons_ne {α : Type} {k a : ℤ} (b : α) (rest : List (ℤ × α))
    (h : k ≠ a) : alookup k ((a, b) :: rest) = alookup k rest := by
  simp [alookup, h]

theorem alookup_some_mem_keys {α : Type} {k : ℤ} {m : List (ℤ × α)} {v : α}
    (h : alookup k m = some v) : k ∈ m.map Prod.fst := by
  induction m with
  | nil => simp [alookup] at h
  | cons p rest ih =>
    obtain ⟨a, b⟩ := p
    by_cases hk : k = a
    · simp [hk]
    · simp only [alookup, if_neg hk] at h
      simp [ih h]

/-- C7 counterexample: with no blank lines, a previous table ending at row 4
with *no* subheaders, and a next table discovered at offset 5 whose
`data_start` is 6 (row 5 a pre-data non-header row), the source's merge test
accepts — yet the gap row 5 is neither blank nor a subheader of the prior
table, so the claimed condition fails. -/
theorem merge_condition_claim_false :
    mergeCond [] headExample.data_end tailExample = true ∧
    ¬((5:ℤ) ∈ ([] : List ℤ) ∨
      (5:ℤ) ∈ headExample.subheader_scope.map Prod.fst) := by
  constructor
  · decide
  · decide

/-- C7 (amended): the two tables are merged exactly when every row strictly
between the previous table's `data_end` and the next table's `data_start` is
blank or is a pre-data non-header row of the *next* table; merging keeps the
head's `top_boundary` and `data_start`, takes the tail's `data_end`, unions
the two subheader scopes and the two aggregation scopes (tail entries
winning), and additionally registers every pre-data non-header row of the
tail as a subheader of the merged table with empty scope (overriding
both). -/
theorem merge_tables_characterization (blanks : List ℤ) (head tail : TableRec) :
    (mergeCond blanks head.data_end tail = true ↔
      ∀ r : ℤ, head.data_end < r → r < tail.data_start →
        r ∈ blanks ∨ (tail.top_boundary ≤ r ∧ r ∉ tail.header)) ∧
    (merge_tables head tail).data_end = tail.data_end ∧
    (merge_tables head tail).top_boundary = head.top_boundary ∧
    (merge_tables head tail).data_start = head.data_start ∧
    (∀ k : ℤ, alookup k (merge_tables head tail).subheader_scope =
      if tail.top_boundary ≤ k ∧ k < tail.data_start ∧ k ∉ tail.header then
        some []
      else
        orElseOpt (alookup k tail.subheader_scope)
          (alookup k head.subheader_scope)) ∧
    (∀ k : ℤ, alookup k (merge_tables head tail).aggregation_scope =
      orElseOpt (alookup k tail.aggregation_scope)
        (alookup k head.aggregation_scope)) := by
  refine ⟨?_, rfl, rfl, rfl, ?_, ?_⟩
  · unfold mergeCond
    rw [List.all_eq_true]
    constructor
    · intro h r h1 h2
      have hr := h r (mem_intRange.mpr ⟨by omega, h2⟩)
      simp only [Bool.or_eq_true, Bool.and_eq_true, Bool.not_eq_true',
        int_contains_iff, int_contains_false_iff, mem_intRange] at hr
      rcases hr with hb | ⟨⟨hb1, _⟩, hb3⟩
      · exact Or.inl hb
      · exact Or.inr ⟨hb1, hb3⟩
    · intro h r hr
      have ⟨h1, h2⟩ := mem_intRange.mp hr
      simp only [Bool.or_eq_true, Bool.and_eq_true, Bool.not_eq_true',
        int_contains_iff, int_contains_false_iff, mem_intRange]
      rcases h r (by omega) h2 with hb | ⟨hb1, hb2⟩
      · exact Or.inl hb
      · exact Or.inr ⟨⟨hb1, h2⟩, hb2⟩
  · intro k
    show alookup k (_ ++ _ ++ _) = _
    rw [List.append_assoc, alookup_append, alookup_map_const]
    by_cases hk : tail.top_boundary ≤ k ∧ k < tail.data_start ∧ k ∉ tail.header
    · have hmem : k ∈ (intRange tail.top_boundary tail.data_start).filter
          fun r => !(tail.header.contains r) := by
        refine List.mem_filter.mpr ⟨mem_intRange.mpr ⟨hk.1, hk.2.1⟩, ?_⟩
        simp only [Bool.not_eq_true', int_contains_false_iff]
        exact hk.2.2
      rw [if_pos hmem, if_pos hk]
      rfl
    · have hnmem : k ∉ (intRange tail.top_boundary tail.data_start).filter
          fun r => !(tail.header.contains r) := by
        intro hmem
        rcases List.mem_filter.mp hmem with ⟨hm1, hm2⟩
        have ⟨hk3, hk4⟩ := mem_intRange.mp hm1
        simp only [Bool.not_eq_true', int_contains_false_iff] at hm2
        exact hk ⟨hk3, hk4, hm2⟩
      rw [if_neg hnmem, if_neg hk]
      exact alookup_append k _ _
  · intro k
    exact alookup_append k _ _

/-- Closed witness for the amended C7 at the concrete example tables. -/
theorem merge_tables_witness :
    alookup 5 (merge_tables headExample tailExample).subheader_scope =
      some [] := by
  rw [(merge_tables_characterization [] headExample tailExample).2.2.2.2.1 5]
  decide

theorem consecutive_scopes_keys (li : ℤ) :
    ∀ subs : List ℤ, (consecutive_scopes li subs).map Prod.fst = subs
  | [] => rfl
  | [_] => rfl
  | s :: s2 :: rest => by
      show s :: (consecutive_scopes li (s2 :: rest)).map Prod.fst = _
      rw [consecutive_scopes_keys li (s2 :: rest)]

theorem consecutive_scopes_sound (li : ℤ) :
    ∀ subs : List ℤ, subs.Pairwise (· < ·) → ∀ (k : ℤ) (l : List ℤ),
      alookup k (consecutive_scopes li subs) = some l →
      k ∈ subs ∧ ∀ x ∈ l, k < x ∧ ∀ k2 ∈ subs, k < k2 → x < k2
  | [] => by
      intro _ k l h
      simp [consecutive_scopes, alookup] at h
  | [s] => by
      intro _ k l h
      by_cases hk : k = s
      · subst hk
        rw [show consecutive_scopes li [k] =
            [(k, intRange (k + 1) (li + 1))] from rfl,
          alookup_cons_self] at h
        injection h with h
        refine ⟨List.mem_singleton.mpr rfl, ?_⟩
        intro x hx
        rw [← h] at hx
        have := mem_intRange.mp hx
        refine ⟨by omega, ?_⟩
        intro k2 hk2 hlt
        rw [List.mem_singleton.mp hk2] at hlt
        omega
      · rw [show consecutive_scopes li [s] =
            [(s, intRange (s + 1) (li + 1))] from rfl,
          alookup_cons_ne _ _ hk] at h
        cases h
  | s :: s2 :: rest => by
      intro hp k l h
      have hcons : consecutive_scopes li (s :: s2 :: rest) =
          (s, intRange (s + 1) s2) :: consecutive_scopes li (s2 :: rest) := rfl
      rw [hcons] at h
      have hpair := List.pairwise_cons.mp hp
      by_cases hk : k = s
      · subst hk
        rw [alookup_cons_self] at h
        injection h with h
        refine ⟨List.mem_cons_self _ _, ?_⟩
        intro x hx
        rw [← h] at hx
        have hxr := mem_intRange.mp hx
        refine ⟨by omega, ?_⟩
        intro k2 hk2 hlt
        rcases List.mem_cons.mp hk2 with rfl | hk2
        · omega
        · rcases List.mem_cons.mp hk2 with rfl | hk2
          · omega
          · have := (List.pairwise_cons.mp hpair.2).1 k2 hk2
            omega
      · rw [alookup_cons_ne _ _ hk] at h
        obtain ⟨hmem, hbound⟩ :=
          consecutive_scopes_sound li (s2 :: rest) hpair.2 k l h
        refine ⟨List.mem_cons_of_mem _ hmem, ?_⟩
        intro x hx
        refine ⟨(hbound x hx).1, ?_⟩
        intro k2 hk2 hlt
        rcases List.mem_cons.mp hk2 with rfl | hk2
        · exact absurd hlt (by have := hpair.1 k hmem; omega)
        · exact (hbound x hx).2 k2 hk2 hlt

theorem consecutive_scopes_cover (li : ℤ) :
    ∀ subs : List ℤ, subs.Pairwise (· < ·) → ∀ r : ℤ,
      r ≤ li → r ∉ subs → (∃ k ∈ subs, k < r) →
      ∃ k l, alookup k (consecutive_scopes li subs) = some l ∧ r ∈ l
  | [] => by
      rintro _ r _ _ ⟨k, hk, _⟩
      cases hk
  | [s] => by
      rintro _ r hle hnot ⟨k, hk, hkr⟩
      rw [List.mem_singleton.mp hk] at hkr
      refine ⟨s, intRange (s + 1) (li + 1), ?_, ?_⟩
      · simp [consecutive_scopes, alookup]
      · exact mem_intRange.mpr ⟨by omega, by omega⟩
  | s :: s2 :: rest => by
      rintro hp r hle hnot ⟨k, hk, hkr⟩
      have hpair := List.pairwise_cons.mp hp
      have hcons : consecutive_scopes li (s :: s2 :: rest) =
          (s, intRange (s + 1) s2) :: consecutive_scopes li (s2 :: rest) := rfl
      by_cases hr2 : r < s2
      · have hks : k = s := by
          rcases List.mem_cons.mp hk with rfl | hk
          · rfl
          · rcases List.mem_cons.mp hk with rfl | hk
            · omega
            · have := (List.pairwise_cons.mp hpair.2).1 k hk
              omega
        subst hks
        refine ⟨k, intRange (k + 1) s2, ?_, ?_⟩
        · rw [hcons]
          simp [alookup]
        · refine mem_intRange.mpr ⟨by omega, hr2⟩
      · have hrs2 : r ≠ s2 := by
          intro h
          apply hnot
          rw [h]
          exact List.mem_cons_of_mem s (List.mem_cons_self s2 rest)
        have hr2' : s2 < r := by omega
        have hnot2 : r ∉ s2 :: rest := fun h =>
          hnot (List.mem_cons_of_mem s h)
        obtain ⟨k', l', hl', hrl'⟩ := consecutive_scopes_cover li (s2 :: rest)
          hpair.2 r hle hnot2 ⟨s2, List.mem_cons_self _ _, hr2'⟩
        refine ⟨k', l', ?_, hrl'⟩
        rw [hcons]
        have hmem := (consecutive_scopes_sound li (s2 :: rest) hpair.2
          k' l' hl').1
        have hk's : k' ≠ s := by
          have := hpair.1 k' hmem
          omega
        rw [alookup_cons_ne _ _ hk's]
        exact hl'

theorem assign_scopes_loop_eq (li : ℤ) :
    ∀ (subs : List ℤ) (scope : List (ℤ × List ℤ)), subs.Pairwise (· < ·) →
      (∀ x ∈ subs, alookup x scope = none) →
      assign_scopes_loop li scope subs = scope ++ consecutive_scopes li subs
  | [] => by
      intro scope _ _
      simp [assign_scopes_loop, consecutive_scopes]
  | s :: rest => by
      intro scope hp hnone
      have hs : alookup s scope = none := hnone s (List.mem_cons_self _ _)
      have hpair := List.pairwise_cons.mp hp
      cases rest with
      | nil =>
        show (if (alookup s scope).isSome then assign_scopes_loop li scope []
          else assign_scopes_loop li
            (scope ++ [(s, intRange (s + 1) (li + 1))]) []) = _
        rw [hs]
        show assign_scopes_loop li
          (scope ++ [(s, intRange (s + 1) (li + 1))]) [] = _
        rfl
      | cons s2 r2 =>
        have hs2 : alookup s2 scope = none :=
          hnone s2 (List.mem_cons_of_mem _ (List.mem_cons_self _ _))
        have hfu : firstUnassigned scope (s2 :: r2) = some s2 := by
          simp [firstUnassigned, hs2]
        show (if (alookup s scope).isSome then
            assign_scopes_loop li scope (s2 :: r2)
          else
            match firstUnassigned scope (s2 :: r2) with
            | some nxt => assign_scopes_loop li
                (scope ++ [(s, intRange (s + 1) nxt)]) (s2 :: r2)
            | none => assign_scopes_loop li scope (s2 :: r2)) = _
        rw [hs, hfu]
        show assign_scopes_loop li
          (scope ++ [(s, intRange (s + 1) s2)]) (s2 :: r2) = _
        have hnone2 : ∀ x ∈ s2 :: r2,
            alookup x (scope ++ [(s, intRange (s + 1) s2)]) = none := by
          intro x hx
          rw [alookup_append, hnone x (List.mem_cons_of_mem _ hx)]
          have hxs : x ≠ s := by
            have := hpair.1 x hx
            omega
          simp [alookup, orElseOpt, hxs]
        rw [assign_scopes_loop_eq li (s2 :: r2)
          (scope ++ [(s, intRange (s + 1) s2)]) hpair.2 hnone2]
        rw [List.append_assoc]
        rfl

/-- C9 counterexample: the emitted record produced by merging the two
example tables (the merge condition holds) has subheader key 5 inside
`[data_start, data_end]`, yet row 6 — which lies between subheader 5 and the
table end with no further subheader — appears in *no* subheader's scope,
because `merge_tables` registers promoted gap rows with an empty scope. -/
theorem subheader_scope_partition_claim_false :
    mergeCond [] headExample.data_end tailExample = true ∧
    alookup 5 (merge_tables headExample tailExample).subheader_scope =
      some [] ∧
    (merge_tables headExample tailExample).data_start ≤ 5 ∧
    (5:ℤ) ≤ (merge_tables headExample tailExample).data_end ∧
    (5:ℤ) < 6 ∧ (6:ℤ) ≤ (merge_tables headExample tailExample).data_end ∧
    ∀ p ∈ (merge_tables headExample tailExample).subheader_scope,
      (6:ℤ) ∉ p.2 := by
  refine ⟨by decide, by decide, by decide, by decide, by decide, by decide, ?_⟩
  decide

/-- C9 (amended): for the scope-assignment loop of `predict_subheaders` run
on a sorted subheader candidate list with no pre-assigned scopes, the
resulting scope keys are exactly the listed subheaders (hence they lie in
`[data_start, data_end]` whenever the candidates do), the table's data rows
have the subheaders removed and so are disjoint from the keys, and the
scopes partition the rows lying strictly between successive subheaders
(and after the last subheader up to the final data row): every such row
appears in exactly one subheader's scope.  For *merged* tables this
partition can fail, since `merge_tables` assigns promoted gap subheaders an
empty scope. -/
theorem assign_scopes_partition (li : ℤ) (subs dataLines : List ℤ)
    (hs : subs.Pairwise (· < ·)) :
    assign_scopes_loop li [] subs = consecutive_scopes li subs ∧
    (consecutive_scopes li subs).map Prod.fst = subs ∧
    (∀ r ∈ remove_subheaders dataLines subs, r ∉ subs) ∧
    (∀ r : ℤ, r ≤ li → r ∉ subs → (∃ k ∈ subs, k < r) →
      ∃! k : ℤ, ∃ l,
        alookup k (consecutive_scopes li subs) = some l ∧ r ∈ l) := by
  refine ⟨?_, consecutive_scopes_keys li subs, ?_, ?_⟩
  · have := assign_scopes_loop_eq li subs [] hs (fun x _ => rfl)
    simpa using this
  · intro r hr
    rcases List.mem_filter.mp hr with ⟨_, hr2⟩
    simp only [Bool.not_eq_true', int_contains_false_iff] at hr2
    exact hr2
  · intro r hle hnot hex
    obtain ⟨k, l, hlk, hrl⟩ :=
      consecutive_scopes_cover li subs hs r hle hnot hex
    refine ⟨k, ⟨l, hlk, hrl⟩, ?_⟩
    rintro k' ⟨l', hlk', hrl'⟩
    have s1 := consecutive_scopes_sound li subs hs k l hlk
    have s2 := consecutive_scopes_sound li subs hs k' l' hlk'
    rcases lt_trichotomy k' k with h | h | h
    · have := (s2.2 r hrl').2 k s1.1 h
      have := (s1.2 r hrl).1
      omega
    · exact h
    · have := (s1.2 r hrl).2 k' s2.1 h
      have := (s2.2 r hrl').1
      omega

/-- Closed witness for the amended C9 on a concrete subheader list. -/
theorem assign_scopes_witness :
    assign_scopes_loop 10 [] [5, 8] = consecutive_scopes 10 [5, 8] :=
  (assign_scopes_partition 10 [5, 8] [] (by decide)).1

theorem finalizeRow_ldl (st : WalkState) (label : ℤ) (w : ℕ) (isData : Bool)
    (probation : List ℤ) :
    (finalizeRow st label w isData probation).2.predictedLdl =
        st.predictedLdl ∨
    (finalizeRow st label w isData probation).2.predictedLdl = label := by
  unfold finalizeRow acceptRow
  split_ifs <;>
    first
      | exact Or.inl rfl
      | exact Or.inr rfl

theorem walkStep_ldl (P : WalkParams) (st : WalkState) (label : ℤ)
    (row : WalkRow) :
    (walkStep P st label row).2.predictedLdl = st.predictedLdl ∨
    (walkStep P st label row).2.predictedLdl = label := by
  unfold walkStep
  cases h1 : P.blank_lines.contains label with
  | true => exact Or.inl rfl
  | false =>
  cases h2 : P.subheaders.contains label &&
      !(subheaderFootnote (firstValue row.cells)) with
  | true => exact Or.inl rfl
  | false =>
  cases h3 : nearNullFootnoteBreak P label row.cells with
  | true => exact Or.inl rfl
  | false =>
  cases h4 : decide (st.lineCounter + 1 ≤ 3) ||
      P.aggregation_rows.contains label with
  | true => exact Or.inr rfl
  | false =>
  cases h5 : row.cells.all Option.isNone with
  | true => exact Or.inl rfl
  | false =>
  cases h6 : P.headers_discovered.contains (rowKey row.cells) with
  | true => exact finalizeRow_ldl _ _ _ _ _
  | false =>
  cases h7 : decide (0 < row.dataConf) &&
      decide (row.notDataConf ≤ row.dataConf) with
  | true => exact finalizeRow_ldl _ _ _ _ _
  | false =>
  cases h8 : !st.certainDataWidths.isEmpty &&
      (non_empty_values row.cells == maxNat st.certainDataWidths) &&
      st.dataIdx.contains (label - 1) with
  | true => exact finalizeRow_ldl _ _ _ _ _
  | false =>
  cases h9 : !(st.probation.contains (label - 1)) &&
      !(P.blank_lines.contains (label - 1)) &&
      decide (row.dataConf < row.notDataConf) && !row.predData with
  | true => exact finalizeRow_ldl _ _ _ _ _
  | false =>
  cases h10 : !(st.probation.contains (label - 1)) && row.predData with
  | true => exact finalizeRow_ldl _ _ _ _ _
  | false => exact finalizeRow_ldl _ _ _ _ _

theorem walkStep_blank (P : WalkParams) (st : WalkState) (label : ℤ)
    (row : WalkRow) (h : P.blank_lines.contains label = true) :
    walkStep P st label row = (false, bumpCounter st) := by
  unfold walkStep
  rw [h]
  rfl

theorem walkAux_ldl_lt_blank (P : WalkParams) (b : ℤ)
    (hb : b ∈ P.blank_lines) :
    ∀ (rows : List WalkRow) (label : ℤ) (st : WalkState),
      label ≤ b → st.predictedLdl < b →
      (walkAux P rows label st).predictedLdl < b
  | [] => by
      intro label st _ h
      exact h
  | r :: rs => by
      intro label st hlb hldl
      show (match walkStep P st label r with
        | (true, st1) => walkAux P rs (label + 1) st1
        | (false, st1) => st1).predictedLdl < b
      by_cases hbl : P.blank_lines.contains label = true
      · rw [walkStep_blank P st label r hbl]
        exact hldl
      · have hlab : label < b := by
          have hne : label ≠ b := by
            intro h
            exact hbl (by rw [h]; exact int_contains_iff.mpr hb)
          omega
        rcases hstep : walkStep P st label r with ⟨c, st1⟩
        have hldl1 : st1.predictedLdl < b := by
          rcases walkStep_ldl P st label r with h | h <;> rw [hstep] at h <;>
            dsimp at h <;> omega
        cases c
        · exact hldl1
        · exact walkAux_ldl_lt_blank P b hb rs (label + 1) st1 (by omega) hldl1

/-- C10: during the top-down walk, the first blank row reached stops the
walk immediately (pytheas.py:3416, 3703-3705), so — provided the predicted
first data line is itself not blank, which the FDL predictor guarantees
since blank rows carry no data confidence — the returned last data line is
strictly smaller than any blank row at or after the predicted first data
line, in particular than the first one. -/
theorem ldl_lt_first_blank (P : WalkParams) (rows : List WalkRow)
    (fdl b : ℤ) (hb : b ∈ P.blank_lines) (hfb : fdl ≤ b)
    (hfdl : fdl ∉ P.blank_lines) :
    predict_last_data_line_top_down P fdl rows < b := by
  have hlt : fdl < b := by
    have hne : fdl ≠ b := fun h => hfdl (h ▸ hb)
    omega
  exact walkAux_ldl_lt_blank P b hb rows fdl _ hfb hlt

/-- Closed witness for C10: two accepted rows, then the blank row 2 stops
the walk with last data line 1 < 2. -/
theorem ldl_lt_first_blank_witness :
    predict_last_data_line_top_down walkParamsBlank2 0
      [forcedRow, forcedRow, forcedRow] < 2 :=
  ldl_lt_first_blank walkParamsBlank2 [forcedRow, forcedRow, forcedRow] 0 2
    (by decide) (by decide) (by decide)

theorem finalizeRow_accept (st : WalkState) (label : ℤ) (w : ℕ)
    (prob : List ℤ) (hfresh : prob.contains label = false) :
    finalizeRow st label w true prob = (true, acceptRow st label w) := by
  unfold finalizeRow
  rw [hfresh]
  rfl

theorem finalizeRow_reject (st : WalkState) (label : ℤ) (w : ℕ)
    (prob : List ℤ) (hfresh : prob.contains label = false) :
    finalizeRow st label w false prob = (false, st) := by
  unfold finalizeRow
  rw [hfresh]
  rfl

theorem finalizeRow_probation (st : WalkState) (label : ℤ) (w : ℕ)
    (isData : Bool) (prob : List ℤ) (h : prob.contains label = true) :
    finalizeRow st label w isData prob =
      (true, { st with probation := prob }) := by
  unfold finalizeRow
  rw [h]
  rfl

/-- C1 counterexample: with no blanks, subheaders, aggregations or known
headers, a fourth walked row carrying `data_conf = 1` and
`not_data_conf = 0` is accepted (the returned last data line is its label
3), although the claimed test `data_conf ≥ not_data_conf > 0` fails —
`not_data_conf` is not positive.  The source's test (pytheas.py:3660) is
`data_conf > 0 and data_conf >= not_data_conf`. -/
theorem walk_accepts_without_positive_not_data_conf :
    predict_last_data_line_top_down walkParamsEmpty 0
      [forcedRow, forcedRow, forcedRow, scoredRow] = 3 ∧
    scoredRow.notDataConf ≤ scoredRow.dataConf ∧
    ¬(0 < scoredRow.notDataConf) := by
  refine ⟨by decide, by decide, by decide⟩

/-- C1 (amended): a non-blank candidate row that is not a promoted
subheader and not stopped by the footnote heuristics is (a) always accepted
while `line_counter ≤ 3` or when it is an aggregation row; and (b) when it
is beyond the first three walked rows, not an aggregation row, not all-null
and not a previously discovered header, it is accepted as data exactly when
`data_conf > 0` and `data_conf ≥ not_data_conf`, or its non-null width
equals the maximum accepted width and the previous row was accepted, or it
is not put on probation and the previous row is not on probation and the
standalone row prediction is DATA. -/
theorem walk_row_acceptance (P : WalkParams) (st : WalkState) (label : ℤ)
    (row : WalkRow)
    (hblank : P.blank_lines.contains label = false)
    (hsub : P.subheaders.contains label = false)
    (hfn : nearNullFootnoteBreak P label row.cells = false) :
    ((st.lineCounter + 1 ≤ 3 ∨ P.aggregation_rows.contains label = true) →
      walkStep P st label row =
        (true, acceptRow (bumpCounter st) label
          (non_empty_values row.cells))) ∧
    (3 ≤ st.lineCounter →
      P.aggregation_rows.contains label = false →
      row.cells.all Option.isNone = false →
      P.headers_discovered.contains (rowKey row.cells) = false →
      st.probation.contains label = false →
      st.predictedLdl ≠ label →
      (((walkStep P st label row).1 = true ∧
          (walkStep P st label row).2.predictedLdl = label) ↔
        ((0 < row.dataConf ∧ row.notDataConf ≤ row.dataConf) ∨
         (st.certainDataWidths ≠ [] ∧
           non_empty_values row.cells = maxNat st.certainDataWidths ∧
           (label - 1) ∈ st.dataIdx) ∨
         (¬((label - 1) ∉ st.probation ∧ (label - 1) ∉ P.blank_lines ∧
             row.dataConf < row.notDataConf ∧ row.predData = false) ∧
           (label - 1) ∉ st.probation ∧ row.predData = true)))) := by
  constructor
  · intro hforce
    have h4 : (decide (st.lineCounter + 1 ≤ 3) ||
        P.aggregation_rows.contains label) = true := by
      rcases hforce with h | h
      · rw [decide_eq_true h]
        rfl
      · rw [h, Bool.or_true]
    unfold walkStep
    rw [hblank, hsub, hfn, h4]
    rfl
  · intro hcnt hagg hnull hhdr hfresh hldl
    have h4 : (decide (st.lineCounter + 1 ≤ 3) ||
        P.aggregation_rows.contains label) = false := by
      rw [hagg]
      simp only [Bool.or_false, decide_eq_false_iff_not]
      omega
    have hprobapp : (st.probation ++ [label]).contains label = true :=
      int_contains_iff.mpr (by simp)
    by_cases hP1 : 0 < row.dataConf ∧ row.notDataConf ≤ row.dataConf
    · have hc1 : (decide (0 < row.dataConf) &&
          decide (row.notDataConf ≤ row.dataConf)) = true := by
        simp [hP1.1, hP1.2]
      have hw : walkStep P st label row =
          (true, acceptRow (bumpCounter st) label
            (non_empty_values row.cells)) := by
        unfold walkStep
        rw [hblank, hsub, hfn, h4, hnull, hhdr, hc1,
          finalizeRow_accept _ _ _ _ hfresh]
        rfl
      rw [hw]
      simp only [true_and]
      constructor
      · intro _
        exact Or.inl hP1
      · intro _
        exact rfl
    · have hc1 : (decide (0 < row.dataConf) &&
          decide (row.notDataConf ≤ row.dataConf)) = false := by
        rw [Bool.and_eq_false_iff]
        by_cases hd : 0 < row.dataConf
        · refine Or.inr ?_
          simp only [decide_eq_false_iff_not]
          intro hn
          exact hP1 ⟨hd, hn⟩
        · exact Or.inl (by simpa using hd)
      by_cases hP2 : st.certainDataWidths ≠ [] ∧
          non_empty_values row.cells = maxNat st.certainDataWidths ∧
          (label - 1) ∈ st.dataIdx
      · have hc2 : (!st.certainDataWidths.isEmpty &&
            (non_empty_values row.cells == maxNat st.certainDataWidths) &&
            st.dataIdx.contains (label - 1)) = true := by
          simp only [Bool.and_eq_true, Bool.not_eq_true', beq_iff_eq]
          refine ⟨⟨?_, hP2.2.1⟩, int_contains_iff.mpr hP2.2.2⟩
          rcases hl : st.certainDataWidths with _ | _
          · exact absurd hl hP2.1
          · rfl
        have hw : walkStep P st label row =
            (true, acceptRow (bumpCounter st) label
              (non_empty_values row.cells)) := by
          unfold walkStep
          rw [hblank, hsub, hfn, h4, hnull, hhdr, hc1, hc2,
            finalizeRow_accept _ _ _ _ hfresh]
          rfl
        rw [hw]
        simp only [true_and]
        constructor
        · intro _
          exact Or.inr (Or.inl hP2)
        · intro _
          exact rfl
      · have hc2 : (!st.certainDataWidths.isEmpty &&
            (non_empty_values row.cells == maxNat st.certainDataWidths) &&
            st.dataIdx.contains (label - 1)) = false := by
          rw [← Bool.not_eq_true]
          intro hc
          apply hP2
          simp only [Bool.and_eq_true, Bool.not_eq_true', beq_iff_eq] at hc
          refine ⟨?_, hc.1.2, int_contains_iff.mp hc.2⟩
          intro hl
          rw [hl] at hc
          exact absurd hc.1.1 (by simp)
        have hprobC : ((!(st.probation.contains (label - 1)) &&
            !(P.blank_lines.contains (label - 1)) &&
            decide (row.dataConf < row.notDataConf) && !row.predData) = true)
            ↔ ((label - 1) ∉ st.probation ∧ (label - 1) ∉ P.blank_lines ∧
              row.dataConf < row.notDataConf ∧ row.predData = false) := by
          simp only [Bool.and_eq_true, Bool.not_eq_true',
            int_contains_false_iff, decide_eq_true_eq]
          constructor
          · rintro ⟨⟨⟨a, b⟩, c⟩, d⟩
            exact ⟨a, b, c, d⟩
          · rintro ⟨a, b, c, d⟩
            exact ⟨⟨⟨a, b⟩, c⟩, d⟩
        by_cases hPc : (label - 1) ∉ st.probation ∧
            (label - 1) ∉ P.blank_lines ∧
            row.dataConf < row.notDataConf ∧ row.predData = false
        · have hc3 : (!(st.probation.contains (label - 1)) &&
              !(P.blank_lines.contains (label - 1)) &&
              decide (row.dataConf < row.notDataConf) && !row.predData)
              = true := hprobC.mpr hPc
          have hw : walkStep P st label row =
              (true, { bumpCounter st with
                probation := st.probation ++ [label] }) := by
            unfold walkStep
            rw [hblank, hsub, hfn, h4, hnull, hhdr, hc1, hc2, hc3,
              finalizeRow_probation _ _ _ _ _ hprobapp]
            rfl
          rw [hw]
          constructor
          · rintro ⟨_, habs⟩
            exact absurd habs.symm (by simpa using hldl.symm)
          · rintro (h | h | h)
            · exact absurd h hP1
            · exact absurd h hP2
            · exact absurd hPc h.1
        · have hc3 : (!(st.probation.contains (label - 1)) &&
              !(P.blank_lines.contains (label - 1)) &&
              decide (row.dataConf < row.notDataConf) && !row.predData)
              = false := by
            rw [← Bool.not_eq_true]
            intro hc
            exact hPc (hprobC.mp hc)
          have hP3iff : ((!(st.probation.contains (label - 1)) &&
              row.predData) = true) ↔
              ((label - 1) ∉ st.probation ∧ row.predData = true) := by
            simp only [Bool.and_eq_true, Bool.not_eq_true',
              int_contains_false_iff]
          by_cases hP3 : (label - 1) ∉ st.probation ∧ row.predData = true
          · have hc4 : (!(st.probation.contains (label - 1)) &&
                row.predData) = true := hP3iff.mpr hP3
            have hw : walkStep P st label row =
                (true, acceptRow (bumpCounter st) label
                  (non_empty_values row.cells)) := by
              unfold walkStep
              rw [hblank, hsub, hfn, h4, hnull, hhdr, hc1, hc2, hc3, hc4,
                finalizeRow_accept _ _ _ _ hfresh]
              rfl
            rw [hw]
            simp only [true_and]
            constructor
            · intro _
              exact Or.inr (Or.inr ⟨hPc, hP3⟩)
            · intro _
              exact rfl
          · have hc4 : (!(st.probation.contains (label - 1)) &&
                row.predData) = false := by
              rw [← Bool.not_eq_true]
              intro hc
              exact hP3 (hP3iff.mp hc)
            have hw : walkStep P st label row = (false, bumpCounter st) := by
              unfold walkStep
              rw [hblank, hsub, hfn, h4, hnull, hhdr, hc1, hc2, hc3, hc4]
              show finalizeRow (bumpCounter st) label
                (non_empty_values row.cells) false st.probation = _
              rw [finalizeRow_reject _ _ _ _ hfresh]
            rw [hw]
            constructor
            · rintro ⟨habs, _⟩
              cases habs
            · rintro (h | h | h)
              · exact absurd h hP1
              · exact absurd h hP2
              · exact absurd h.2 hP3

/-- Closed witness for the amended C1: a first walked row is
force-accepted. -/
theorem walk_row_acceptance_witness :
    walkStep walkParamsEmpty ⟨0, [], [], [], 0⟩ 0 forcedRow =
      (true, acceptRow (bumpCounter ⟨0, [], [], [], 0⟩) 0
        (non_empty_values forcedRow.cells)) :=
  (walk_row_acceptance walkParamsEmpty ⟨0, [], [], [], 0⟩ 0 forcedRow
    (by decide) (by decide) (by decide)).1 (Or.inl (by decide))

theorem foldl_min_le_seed (l : List ℤ) (a : ℤ) : l.foldl min a ≤ a := by
  induction l generalizing a with
  | nil => exact le_rfl
  | cons b t ih => exact le_trans (ih (min a b)) (min_le_left a b)

theorem le_foldl_min (l : List ℤ) (a c : ℤ) (hc : ∀ x ∈ l, c ≤ x)
    (ha : c ≤ a) : c ≤ l.foldl min a := by
  induction l generalizing a with
  | nil => exact ha
  | cons b t ih =>
    exact ih (min a b) (fun x hx => hc x (List.mem_cons_of_mem b hx))
      (le_min ha (hc b (List.mem_cons_self b t)))

theorem data_section_start_le_fdl (fdl : ℤ) (cands : List ℤ) :
    data_section_start fdl cands ≤ fdl := by
  cases cands with
  | nil => exact le_rfl
  | cons c cs => exact min_le_right _ _

theorem offset_le_data_section_start (file_offset fdl : ℤ) (cands : List ℤ)
    (hfdl : file_offset ≤ fdl) (hc : ∀ c ∈ cands, file_offset ≤ c) :
    file_offset ≤ data_section_start fdl cands := by
  cases cands with
  | nil => exact hfdl
  | cons c cs =>
    refine le_min ?_ hfdl
    exact le_foldl_min cs c file_offset
      (fun x hx => hc x (List.mem_cons_of_mem c hx))
      (hc c (List.mem_cons_self c cs))

theorem walkAux_ldl_ge (P : WalkParams) (a : ℤ) :
    ∀ (rows : List WalkRow) (label : ℤ) (st : WalkState),
      a ≤ st.predictedLdl → a ≤ label →
      a ≤ (walkAux P rows label st).predictedLdl
  | [] => by
      intro label st h _
      exact h
  | r :: rs => by
      intro label st hst hlab
      show a ≤ (match walkStep P st label r with
        | (true, st1) => walkAux P rs (label + 1) st1
        | (false, st1) => st1).predictedLdl
      rcases hstep : walkStep P st label r with ⟨c, st1⟩
      have h1 : a ≤ st1.predictedLdl := by
        rcases walkStep_ldl P st label r with h | h <;> rw [hstep] at h <;>
          dsimp at h <;> omega
      cases c
      · exact h1
      · exact walkAux_ldl_ge P a rs (label + 1) st1 h1 (by omega)

theorem walkAux_ldl_le (P : WalkParams) (b : ℤ) :
    ∀ (rows : List WalkRow) (label : ℤ) (st : WalkState),
      st.predictedLdl ≤ b → label + rows.length - 1 ≤ b →
      (walkAux P rows label st).predictedLdl ≤ b
  | [] => by
      intro label st h _
      exact h
  | r :: rs => by
      intro label st hst hlab
      show (match walkStep P st label r with
        | (true, st1) => walkAux P rs (label + 1) st1
        | (false, st1) => st1).predictedLdl ≤ b
      have hlen : (0:ℤ) ≤ (rs.length : ℤ) := Int.natCast_nonneg _
      have hlab1 : label ≤ b := by
        simp only [List.length_cons] at hlab
        push_cast at hlab
        omega
      rcases hstep : walkStep P st label r with ⟨c, st1⟩
      have h1 : st1.predictedLdl ≤ b := by
        rcases walkStep_ldl P st label r with h | h <;> rw [hstep] at h <;>
          dsimp at h <;> omega
      cases c
      · exact h1
      · refine walkAux_ldl_le P b rs (label + 1) st1 h1 ?_
        simp only [List.length_cons] at hlab
        push_cast at hlab ⊢
        omega

theorem int_mem_of_getLast? {l : List ℤ} {b : ℤ} (h : l.getLast? = some b) :
    b ∈ l := by
  rcases List.mem_getLast?_eq_getLast (show b ∈ l.getLast? from h) with
    ⟨hne, hb⟩
  rw [hb]
  exact List.getLast_mem hne

theorem int_mem_of_head? {l : List ℤ} {a : ℤ} (h : l.head? = some a) :
    a ∈ l := by
  cases l with
  | nil => cases h
  | cons x xs =>
    have hax : x = a := by injection h
    rw [← hax]
    exact List.mem_cons_self x xs

theorem sorted_head_le_getLast :
    ∀ (l : List ℤ), l.Pairwise (· ≤ ·) → ∀ a b : ℤ,
      l.head? = some a → l.getLast? = some b → a ≤ b := by
  intro l hp a b hh hl
  have hb : b ∈ l := int_mem_of_getLast? hl
  cases l with
  | nil => cases hh
  | cons x xs =>
    have hax : x = a := by injection hh
    rcases List.mem_cons.mp hb with h | h
    · omega
    · have hxb := (List.pairwise_cons.mp hp).1 b h
      omega

/-- C2: the boundary chain of an emitted table record.  `top_boundary` is
the scan offset; `data_start = min(min(candidate subheaders), FDL)`;
`data_end` is the walk's last data line; the emitted `bottom_boundary` is
the successor's `top_boundary - 1 = data_end` when a successor table
exists, and otherwise the last grid row or `data_end` itself
(pytheas.py:1462-1486, 2415).  The predicted FDL lies at or after the scan
offset and the header rows returned by `predict_header_indexes` are sorted
rows of the pre-data region — those two facts are contracts of `predict_fdl`
and `predict_header_indexes` (`table_classifier_utilities`, not under
src/), here taken as hypotheses modelled from the spec. -/
theorem discovered_boundaries_ordered (file_offset fdl nrows : ℤ)
    (cands headers : List ℤ) (P : WalkParams) (rows : List WalkRow)
    (hfdl : file_offset ≤ fdl)
    (hc : ∀ c ∈ cands, file_offset ≤ c)
    (hsorted : headers.Pairwise (· ≤ ·))
    (hh : ∀ h ∈ headers, file_offset ≤ h ∧
      h < data_section_start fdl cands) :
    (discover_boundaries file_offset fdl cands P rows).top_boundary ≤
      (discover_boundaries file_offset fdl cands P rows).data_start ∧
    (∀ h0 hl : ℤ, headers.head? = some h0 → headers.getLast? = some hl →
      (discover_boundaries file_offset fdl cands P rows).top_boundary ≤ h0 ∧
      h0 ≤ hl ∧
      hl < (discover_boundaries file_offset fdl cands P rows).data_start) ∧
    (discover_boundaries file_offset fdl cands P rows).data_start ≤
      (discover_boundaries file_offset fdl cands P rows).data_end ∧
    (discover_boundaries file_offset fdl cands P rows).data_end ≤
      bottom_with_successor
        (discover_boundaries file_offset fdl cands P rows).data_end ∧
    (discover_boundaries file_offset fdl cands P rows).data_end ≤
      bottom_final nrows
        (discover_boundaries file_offset fdl cands P rows).data_end ∧
    (fdl ≤ nrows - 1 → fdl + rows.length ≤ nrows →
      (discover_boundaries file_offset fdl cands P rows).data_end ≤
        nrows - 1) := by
  refine ⟨?_, ?_, ?_, ?_, ?_, ?_⟩
  · exact offset_le_data_section_start file_offset fdl cands hfdl hc
  · intro h0 hl hh0 hhl
    refine ⟨(hh h0 (int_mem_of_head? hh0)).1, ?_, ?_⟩
    · exact sorted_head_le_getLast headers hsorted h0 hl hh0 hhl
    · exact (hh hl (int_mem_of_getLast? hhl)).2
  · show data_section_start fdl cands ≤
      predict_last_data_line_top_down P fdl rows
    refine le_trans (data_section_start_le_fdl fdl cands) ?_
    exact walkAux_ldl_ge P fdl rows fdl _ le_rfl le_rfl
  · show _ ≤ bottom_with_successor _
    unfold bottom_with_successor
    omega
  · show _ ≤ bottom_final nrows _
    unfold bottom_final
    split_ifs <;> omega
  · intro h1 h2
    show predict_last_data_line_top_down P fdl rows ≤ nrows - 1
    refine walkAux_ldl_le P (nrows - 1) rows fdl _ h1 ?_
    omega

/-- Closed witness for C2: offset 0, one candidate subheader at row 1,
FDL 2, one header row 0, one accepted walk row. -/
theorem discovered_boundaries_witness :
    (discover_boundaries 0 2 [1] walkParamsEmpty [forcedRow]).data_start ≤
      (discover_boundaries 0 2 [1] walkParamsEmpty [forcedRow]).data_end :=
  (discovered_boundaries_ordered 0 2 3 [1] [0] walkParamsEmpty [forcedRow]
    (by decide) (by decide) (by decide) (by decide)).2.2.1

/-- C8 counterexample: a fired DATA line rule whose weight equals
`weight_lower_bound` exactly is *not* appended to the row's evidence
(the source tests `weight > parameters.weight_lower_bound`, strictly),
while the claim requires appending at `weight ≥ bound`. -/
theorem line_weight_at_bound_not_appended :
    append_line_data_weights (fun r => if r = "R" then some 1 else none)
        1 [] ["R"] = [] ∧
    ([] : List ℚ) ≠ [1] := by
  refine ⟨?_, by simp⟩
  simp [append_line_data_weights]

/-- C8 (amended): with `weight_input = "values_and_lines"`, a fired line
rule's weight is appended exactly when it is non-null and *strictly greater*
than the corresponding lower bound (`weight_lower_bound` for line/data,
`not_data_weight_lower_bound` for line/not_data); a weight exactly equal to
the bound is not appended.  Line/not_data events are additionally collected
only when the frame has more than one column, skipped for
`UP_TO_FIRST_COLUMN_COMPLETE_CONSISTENTLY` once a data row has been seen,
and untrained `ADJACENT_ARITHMETIC_SEQUENCE_k` events are renamed to
`k+1`. -/
theorem append_line_weights_characterization (weights : String → Option ℚ)
    (wlb ndwlb : ℚ) (bd : Bool) (ncols : ℕ) (ev : List ℚ) (events : List String) :
    append_line_data_weights weights wlb ev events =
      ev ++ events.filterMap (fun r =>
        match weights r with
        | some w => if wlb < w then some w else none
        | none => none) ∧
    append_line_not_data_weights weights ndwlb bd ncols ev events =
      (if 1 < ncols then
        ev ++ events.filterMap (fun e =>
          if e == "UP_TO_FIRST_COLUMN_COMPLETE_CONSISTENTLY" && !bd then none
          else
            match weights (rename_arith_event weights e) with
            | some w => if ndwlb < w then some w else none
            | none => none)
      else ev) := by
  constructor
  · induction events generalizing ev with
    | nil => simp [append_line_data_weights]
    | cons e es ih =>
      simp only [append_line_data_weights, List.foldl_cons] at ih ⊢
      rcases hw : weights e with _ | w
      · simpa [hw] using ih ev
      · by_cases hlt : wlb < w
        · simpa [hw, hlt, List.append_assoc] using ih (ev ++ [w])
        · simpa [hw, hlt] using ih ev
  · rw [append_line_not_data_weights]
    by_cases hn : 1 < ncols
    · simp only [if_pos hn]
      induction events generalizing ev with
      | nil => simp
      | cons e es ih =>
        simp only [List.foldl_cons, List.filterMap_cons]
        by_cases hskip : (e == "UP_TO_FIRST_COLUMN_COMPLETE_CONSISTENTLY" && !bd) = true
        · simpa [hskip] using ih ev
        · rcases hw : weights (rename_arith_event weights e) with _ | w
          · simpa [hskip, hw] using ih ev
          · by_cases hlt : ndwlb < w
            · simpa [hskip, hw, hlt, List.append_assoc] using ih (ev ++ [w])
            · simpa [hskip, hw, hlt] using ih ev
    · simp [if_neg hn]

end Pytheas
